import Mathlib

/-!
# Verification of the sqlitemeta metadata library

A shallow embedding, in Lean 4, of the query-construction and
result-reassembly core of the `sqlitemeta` Go package
(`sqlitemeta.go`), together with theorems settling the frozen claims
about it.

Conventions of the embedding:

* Go strings are Lean `String`s; per-rune operations act on `String.data`.
* `interface{}` scan sources are the inductive `SqlValue` below.
* Pointer-receiver `Scan` methods become functions returning the new
  receiver value paired with an optional error message.
* The SQL executor (`database/sql` plus the `queryRows`/`queryStrings`
  helpers, which are not part of the provided source) is modelled from
  the spec's collaborator contract: an operation receives the decoded
  row list (or an executor error) for the one query it issues, and the
  engine-side `ORDER BY`/`WHERE` semantics are made explicit in Lean.
* Mutation of a slice through the `fk`/`idx` pointer-to-last-element is
  rendered as explicit state: the list of finished records plus the
  record currently under construction.
-/

namespace Sqlitemeta

/-! ## ASCII and Go case folding -/

/-- One character of `sqlower` (sqlitemeta.go): uppercase ASCII is
mapped to lowercase, every other character is untouched. -/
def sqlowerChar (c : Char) : Char :=
  if 'A' ≤ c ∧ c ≤ 'Z' then Char.ofNat (c.toNat + 32) else c

/-- `sqlower` from sqlitemeta.go: replicates SQLite's `LOWER`, which
converts uppercase ASCII characters to lowercase (via `strings.Map`). -/
def sqlower (s : String) : String :=
  String.mk (s.data.map sqlowerChar)

/-- ASCII-only uppercasing, the folding the specification describes
("only the letters A-Z/a-z are folded; all other characters, including
non-ASCII, must compare exactly").  Spec-side notion, used to compare
the spec's wording with the code's actual folding. -/
def specAsciiUpperChar (c : Char) : Char :=
  if 'a' ≤ c ∧ c ≤ 'z' then Char.ofNat (c.toNat - 32) else c

/-- ASCII-only uppercasing of a string (spec-side notion). -/
def specAsciiUpper (s : String) : String :=
  String.mk (s.data.map specAsciiUpperChar)

/-- ASCII-only lowercasing of one character (spec-side notion, the
mirror image of `specAsciiUpperChar`; identical to `sqlowerChar`). -/
def specAsciiLowerChar (c : Char) : Char :=
  if 'A' ≤ c ∧ c ≤ 'Z' then Char.ofNat (c.toNat + 32) else c

/-- ASCII-only lowercasing of a string (spec-side notion). -/
def specAsciiLower (s : String) : String :=
  String.mk (s.data.map specAsciiLowerChar)

/-- One character of Go's `strings.ToUpper` (`unicode.ToUpper`,
Unicode simple case mapping).  Beyond ASCII, the only code points whose
simple uppercase mapping lands in the ASCII range are U+0131 (ı → I)
and U+017F (ſ → S); they are listed explicitly.  All remaining
non-ASCII characters map to non-ASCII characters under Go's tables, so
for every comparison this development performs (equality with ASCII-only
literals) they behave like the identity, and are modelled as such. -/
def goUpperChar (c : Char) : Char :=
  if 'a' ≤ c ∧ c ≤ 'z' then Char.ofNat (c.toNat - 32)
  else if c = 'ı' then 'I'
  else if c = 'ſ' then 'S'
  else c

/-- Go's `strings.ToUpper` (see `goUpperChar` for the modelling of the
Unicode tables). -/
def goToUpper (s : String) : String :=
  String.mk (s.data.map goUpperChar)

/-- One character of Go's `strings.ToLower` (`unicode.ToLower`,
Unicode simple case mapping).  Beyond ASCII, the only code points whose
simple lowercase mapping lands in the ASCII range are U+0130 (İ → i)
and U+212A (KELVIN SIGN → k); they are listed explicitly.  All other
non-ASCII characters map to non-ASCII characters under Go's tables, so
for every comparison this development performs they behave like the
identity, and are modelled as such. -/
def goLowerChar (c : Char) : Char :=
  if 'A' ≤ c ∧ c ≤ 'Z' then Char.ofNat (c.toNat + 32)
  else if c = 'İ' then 'i'
  else if c = 'K' then 'k'
  else c

/-- Go's `strings.ToLower` (see `goLowerChar` for the modelling of the
Unicode tables). -/
def goToLower (s : String) : String :=
  String.mk (s.data.map goLowerChar)

/-! ## Scan sources (`interface{}` values) -/

/-- A runtime value handed to a `Scan` method by `database/sql`.
`bytes s` stands for a `[]byte` whose contents read as the string `s`
(Go's `string(b)` conversion).  `int64` and `nullv` represent the
non-text driver values an executor may produce (e.g. `int64`, `nil`);
they are exactly the representations `toString` rejects. -/
inductive SqlValue where
  | str (s : String)
  | bytes (s : String)
  | int64 (n : Int)
  | nullv
deriving DecidableEq, Repr

/-- `toString` from sqlitemeta.go: a `string` or `[]byte` input is
accepted (as its string contents), everything else is refused. -/
def toStringVal : SqlValue → Option String
  | SqlValue.str s => some s
  | SqlValue.bytes s => some s
  | _ => Option.none

/-- Go's `%T` verb on a scan source: the runtime type name. -/
def goTypeName : SqlValue → String
  | SqlValue.str _ => "string"
  | SqlValue.bytes _ => "[]uint8"
  | SqlValue.int64 _ => "int64"
  | SqlValue.nullv => "<nil>"

/-- Go's `%v` verb on a scan source: the default value formatting. -/
def goValueVerb : SqlValue → String
  | SqlValue.str s => s
  | SqlValue.bytes s => s
  | SqlValue.int64 n => toString n
  | SqlValue.nullv => "<nil>"

/-- Go's `%q` verb on a string: the string surrounded by double
quotes.  (The escaping `%q` applies to quotes, backslashes and
non-printable characters inside the string is not modelled; no input
considered in this development contains such characters.) -/
def goQuote (s : String) : String :=
  "\"" ++ s ++ "\""

/-! ## ForeignKeyAction and its Scan method -/

/-- `ForeignKeyAction` from sqlitemeta.go.  The Go constants
`ForeignKeyActionNone`, … , `ForeignKeyActionCascade` (iota 0..4)
become the constructors in declaration order. -/
inductive ForeignKeyAction where
  | none
  | restrict
  | setNull
  | setDefault
  | cascade
deriving DecidableEq, Repr

/-- `(*ForeignKeyAction).Scan` from sqlitemeta.go.  The receiver's old
value comes in as `v`; the result is the receiver's new value paired
with the returned error (`Option.none` = nil error).  The `switch` on
`strings.ToUpper(s)` is rendered as an equality chain. -/
def ForeignKeyAction.scanGo (v : ForeignKeyAction) (src : SqlValue) :
    ForeignKeyAction × Option String :=
  match toStringVal src with
  | Option.none =>
      (v, some ("invalid ForeignKeyAction: " ++ goTypeName src ++ " " ++ goValueVerb src))
  | some s =>
      let u := goToUpper s
      if u = "NO ACTION" then (ForeignKeyAction.none, Option.none)
      else if u = "RESTRICT" then (ForeignKeyAction.restrict, Option.none)
      else if u = "SET NULL" then (ForeignKeyAction.setNull, Option.none)
      else if u = "SET DEFAULT" then (ForeignKeyAction.setDefault, Option.none)
      else if u = "CASCADE" then (ForeignKeyAction.cascade, Option.none)
      else (v, some ("unsupported ForeignKeyAction: " ++ goQuote s))

/-- The recognized foreign-key-action literals and the value each
denotes (the `case` arms of the `switch`, as a lookup).  Spec-side
companion of `ForeignKeyAction.scanGo`. -/
def fkaOfLiteral (u : String) : Option ForeignKeyAction :=
  if u = "NO ACTION" then some ForeignKeyAction.none
  else if u = "RESTRICT" then some ForeignKeyAction.restrict
  else if u = "SET NULL" then some ForeignKeyAction.setNull
  else if u = "SET DEFAULT" then some ForeignKeyAction.setDefault
  else if u = "CASCADE" then some ForeignKeyAction.cascade
  else Option.none

/-! ## IndexType and its Scan method -/

/-- `IndexType` from sqlitemeta.go: `IndexTypeNormal`,
`IndexTypeUnique`, `IndexTypePrimaryKey` (iota 0..2). -/
inductive IndexType where
  | normal
  | unique
  | primaryKey
deriving DecidableEq, Repr

/-- `(*IndexType).Scan` from sqlitemeta.go, rendered like
`ForeignKeyAction.scanGo`; the `switch` is on `strings.ToLower(s)`. -/
def IndexType.scanGo (t : IndexType) (src : SqlValue) :
    IndexType × Option String :=
  match toStringVal src with
  | Option.none =>
      (t, some ("invalid IndexType: " ++ goTypeName src ++ " " ++ goValueVerb src))
  | some s =>
      let u := goToLower s
      if u = "c" then (IndexType.normal, Option.none)
      else if u = "u" then (IndexType.unique, Option.none)
      else if u = "pk" then (IndexType.primaryKey, Option.none)
      else (t, some ("unsupported IndexType: " ++ goQuote s))

/-- The recognized index-type literals and the value each denotes.
Spec-side companion of `IndexType.scanGo`. -/
def itOfLiteral (u : String) : Option IndexType :=
  if u = "c" then some IndexType.normal
  else if u = "u" then some IndexType.unique
  else if u = "pk" then some IndexType.primaryKey
  else Option.none

/-! ## Record types -/

/-- `Column` from sqlitemeta.go.  `Default` is the raw default-value
expression (`[]byte`, nil when none), modelled as `Option String`. -/
structure Column where
  ID : Int
  Name : String
  Type' : String
  NotNull : Bool
  Default : Option String
  PrimaryKey : Int
deriving DecidableEq, Repr

/-- `ForeignKey` from sqlitemeta.go.  `ParentKey` entries are
`sql.NullString`s (NULL when the REFERENCES clause names no column),
modelled as `Option String`. -/
structure ForeignKey where
  ID : Int
  ChildTable : String
  ChildKey : List String
  ParentTable : String
  ParentKey : List (Option String)
  OnUpdate : ForeignKeyAction
  OnDelete : ForeignKeyAction
deriving DecidableEq, Repr

/-- One decoded row of the `pragma_foreign_key_list` query in
`(*Schema).ForeignKeys` (the anonymous `rows` struct): columns
`id`, `"table"`, `"from"`, `"to"`, `on_update`, `on_delete`. -/
structure FKRow where
  ID : Int
  Table : String
  From : String
  To : Option String
  OnUpdate : ForeignKeyAction
  OnDelete : ForeignKeyAction
deriving DecidableEq, Repr

/-- `Index` from sqlitemeta.go.  (`Type'` renders the Go field `Type`;
`IsPartial` keeps its Go name.)  `ColumnNames` entries are NULL when
the indexed key is an expression. -/
structure Index where
  Name : String
  Type' : IndexType
  IsUnique : Bool
  IsPartial : Bool
  ColumnNames : List (Option String)
deriving DecidableEq, Repr

/-- One decoded row of the joined
`pragma_index_list`/`pragma_index_info` query in `(*Schema).Indexes`
(the anonymous `rows` struct; its Go fields are `Name`, `Type`,
`Unique`, `Partial`, `ColumnName`). -/
structure IdxRow where
  Name : String
  Type' : IndexType
  IsUnique : Bool
  IsPartial : Bool
  ColumnName : Option String
deriving DecidableEq, Repr

/-- `IndexColumn` from sqlitemeta.go, also the decoded row shape of the
`pragma_index_xinfo` query (`name`, `seqno`, `cid`, `desc`, `coll`,
`key` decode positionally into these fields). -/
structure IndexColumn where
  Name : Option String
  Rank : Int
  TableRank : Int
  Descending : Bool
  Collation : String
  IsKey : Bool
deriving DecidableEq, Repr

/-- `Schema` from sqlitemeta.go: a named (or, for the package-level
convenience functions, unnamed) database selector. -/
structure Schema where
  name : String
deriving DecidableEq, Repr

/-- `DB` from sqlitemeta.go. -/
def DB (name : String) : Schema := ⟨name⟩

/-- `Main` from sqlitemeta.go. -/
def Main : Schema := DB "main"

/-- `Temp` from sqlitemeta.go. -/
def Temp : Schema := DB "temp"

/-- `noSchema` from sqlitemeta.go: the unscoped selector used by the
package-level functions. -/
def noSchema : Schema := ⟨""⟩

/-! ## Foreign-key reassembly (`(*Schema).ForeignKeys`, lines 267-289) -/

/-- The fresh `ForeignKey` literal appended when a row starts a new
group (the `foreignKeys = append(foreignKeys, ForeignKey{...})`
statement): group-level fields from the row, list fields empty. -/
def fkNew (tableName : String) (r : FKRow) : ForeignKey :=
  { ID := r.ID
    ChildTable := tableName
    ChildKey := []
    ParentTable := r.Table
    ParentKey := []
    OnUpdate := r.OnUpdate
    OnDelete := r.OnDelete }

/-- The per-row appends `fk.ChildKey = append(fk.ChildKey, r.From)`
and `fk.ParentKey = append(fk.ParentKey, r.To)`. -/
def fkAppendRow (fk : ForeignKey) (r : FKRow) : ForeignKey :=
  { fk with
    ChildKey := fk.ChildKey ++ [r.From]
    ParentKey := fk.ParentKey ++ [r.To] }

/-- The row loop of `(*Schema).ForeignKeys`.  Go's `fk` pointer always
addresses the last element of `foreignKeys`; the state is therefore the
already-finished records `acc` plus the record `cur` that `fk` points
at (`Option.none` renders `fk == nil`). -/
def fkLoop (tableName : String) : List FKRow → List ForeignKey → Option ForeignKey → List ForeignKey
  | [], acc, cur => acc ++ cur.toList
  | r :: rs, acc, cur =>
    match cur with
    | Option.none =>
        fkLoop tableName rs acc (some (fkAppendRow (fkNew tableName r) r))
    | some fk =>
        if r.ID ≠ fk.ID then
          fkLoop tableName rs (acc ++ [fk]) (some (fkAppendRow (fkNew tableName r) r))
        else
          fkLoop tableName rs acc (some (fkAppendRow fk r))

/-- The reassembly performed by `(*Schema).ForeignKeys` on the decoded
rows (the part of the method after `queryRows` has succeeded). -/
def foreignKeysOf (tableName : String) (rows : List FKRow) : List ForeignKey :=
  fkLoop tableName rows [] Option.none

/-- Spec-side description of one output record (§4.4): the first row
`r` of a run captures the group-level fields, and every row of the run
`r :: run` contributes one child-column and one parent-column entry, in
row order. -/
def fkOfRun (tableName : String) (r : FKRow) (run : List FKRow) : ForeignKey :=
  { ID := r.ID
    ChildTable := tableName
    ChildKey := (r :: run).map FKRow.From
    ParentTable := r.Table
    ParentKey := (r :: run).map FKRow.To
    OnUpdate := r.OnUpdate
    OnDelete := r.OnDelete }

/-- Spec-side regrouping (§4.4 / §9): one output record per maximal
run of consecutive rows sharing a foreign-key id, in run order. -/
def fkGroups (tableName : String) : List FKRow → List ForeignKey
  | [] => []
  | r :: rs =>
    fkOfRun tableName r (rs.takeWhile (fun x => x.ID == r.ID)) ::
      fkGroups tableName (rs.dropWhile (fun x => x.ID == r.ID))
termination_by l => l.length
decreasing_by
  simp only [List.length_cons, Nat.lt_succ_iff]
  exact (List.dropWhile_suffix _).sublist.length_le

/-! ## Index reassembly (`(*Schema).Indexes`, lines 390-410) -/

/-- The fresh `Index` literal appended when a row starts a new group. -/
def idxNew (r : IdxRow) : Index :=
  { Name := r.Name
    Type' := r.Type'
    IsUnique := r.IsUnique
    IsPartial := r.IsPartial
    ColumnNames := [] }

/-- The per-row append `idx.ColumnNames = append(idx.ColumnNames, r.ColumnName)`. -/
def idxAppendRow (idx : Index) (r : IdxRow) : Index :=
  { idx with ColumnNames := idx.ColumnNames ++ [r.ColumnName] }

/-- The row loop of `(*Schema).Indexes`, rendered like `fkLoop`
(the `idx` pointer becomes the `cur` component). -/
def idxLoop : List IdxRow → List Index → Option Index → List Index
  | [], acc, cur => acc ++ cur.toList
  | r :: rs, acc, cur =>
    match cur with
    | Option.none =>
        idxLoop rs acc (some (idxAppendRow (idxNew r) r))
    | some idx =>
        if r.Name ≠ idx.Name then
          idxLoop rs (acc ++ [idx]) (some (idxAppendRow (idxNew r) r))
        else
          idxLoop rs acc (some (idxAppendRow idx r))

/-- The reassembly performed by `(*Schema).Indexes` on the decoded
rows. -/
def indexesOf (rows : List IdxRow) : List Index :=
  idxLoop rows [] Option.none

/-- Spec-side description of one output index record (§4.5). -/
def idxOfRun (r : IdxRow) (run : List IdxRow) : Index :=
  { Name := r.Name
    Type' := r.Type'
    IsUnique := r.IsUnique
    IsPartial := r.IsPartial
    ColumnNames := (r :: run).map IdxRow.ColumnName }

/-- Spec-side regrouping (§4.5 / §9): one output record per maximal
run of consecutive rows sharing an index name, in run order. -/
def idxGroups : List IdxRow → List Index
  | [] => []
  | r :: rs =>
    idxOfRun r (rs.takeWhile (fun x => x.Name == r.Name)) ::
      idxGroups (rs.dropWhile (fun x => x.Name == r.Name))
termination_by l => l.length
decreasing_by
  simp only [List.length_cons, Nat.lt_succ_iff]
  exact (List.dropWhile_suffix _).sublist.length_le

/-! ## SQL text construction -/

/-- `strings.Repeat(s, n)`: `n` concatenated copies of `s`. -/
def goRepeatStr (s : String) : Nat → String
  | 0 => ""
  | n + 1 => s ++ goRepeatStr s n

/-- `strings.Split(s, "")`: the list of `s`'s runes, each as a
one-rune string (empty input gives the empty list). -/
def goSplitRunes (s : String) : List String :=
  s.data.map (fun c => String.mk [c])

/-- `placeholdersFor` from sqlitemeta.go:
`strings.Join(strings.Split(strings.Repeat("?", len(vals)), ""), ", ")`.
The parameter values (Go `[]interface{}`) are all strings in this
package, so `vals : List String`. -/
def placeholdersFor (vals : List String) : String :=
  String.intercalate ", " (goSplitRunes (goRepeatStr "?" vals.length))

/-- The parameter list built at the top of `(*Schema).Columns`,
`(*Schema).ForeignKeys` and `(*Schema).indexColumns`: the object name,
then the schema name when the selector is named. -/
def Schema.objectParams (s : Schema) (objectName : String) : List String :=
  if s.name = "" then [objectName] else [objectName, s.name]

/-- The SQL text and bound parameters built by `(*Schema).Columns`
(lines 118-140). -/
def Schema.columnsQuery (s : Schema) (tableName : String) : String × List String :=
  let params := s.objectParams tableName
  ("SELECT\n\t\t\tcid,\n\t\t\tname,\n\t\t\ttype,\n\t\t\t\"notnull\",\n\t\t\tdflt_value,\n\t\t\tpk\n\t\tFROM\n\t\t\tpragma_table_info(" ++
      placeholdersFor params ++ ")\n\t\tORDER BY\n\t\t\tcid",
    params)

/-- The SQL text and bound parameters built by `(*Schema).ForeignKeys`
(lines 233-251). -/
def Schema.foreignKeysQuery (s : Schema) (tableName : String) : String × List String :=
  let params := s.objectParams tableName
  ("SELECT\n\t\t\tid,\n\t\t\t\"table\",\n\t\t\t\"from\",\n\t\t\t\"to\",\n\t\t\ton_update,\n\t\t\ton_delete\n\t\tFROM\n\t\t\tpragma_foreign_key_list(" ++
      placeholdersFor params ++ ")\n\t\tORDER BY\n\t\t\tid, seq",
    params)

/-- The SQL text and bound parameters built by `(*Schema).Indexes`
(lines 353-385): the object name is bound to `pragma_index_list`, and
when the selector is named the schema name is bound once to each of
the two pragma calls (`params = [tableName, s.name, s.name]`). -/
def Schema.indexesQuery (s : Schema) (tableName : String) : String × List String :=
  let placeholder := if s.name = "" then "" else ", ?"
  let params := if s.name = "" then [tableName] else [tableName, s.name, s.name]
  ("SELECT\n\t\t\tt1.name,\n\t\t\tt1.origin,\n\t\t\tt1.\"unique\",\n\t\t\tt1.partial,\n\t\t\tt2.name\n\t\tFROM\n\t\t\tpragma_index_list(?" ++
      placeholder ++ ") t1\n\t\tINNER JOIN\n\t\t\tpragma_index_info(t1.name" ++
      placeholder ++ ") t2\n\t\tORDER BY\n\t\t\tt1.seq, t2.seqno",
    params)

/-- The SQL text and bound parameters built by `(*Schema).indexColumns`
(lines 471-496), with the `WHERE` clause selected by `includeAux`. -/
def Schema.indexColumnsQuery (s : Schema) (indexName : String) (includeAux : Bool) :
    String × List String :=
  let params := s.objectParams indexName
  let whereClause := if includeAux then "1 = 1" else "key = 1"
  ("SELECT\n\t\t\tname,\n\t\t\tseqno,\n\t\t\tcid,\n\t\t\tdesc,\n\t\t\tcoll,\n\t\t\tkey\n\t\tFROM\n\t\t\tpragma_index_xinfo(" ++
      placeholdersFor params ++ ")\n\t\tWHERE\n\t\t\t" ++ whereClause ++
      "\n\t\tORDER BY\n\t\t\tseqno",
    params)

/-- Number of `?` placeholder characters in a SQL text.  (No SQL text
in this package contains `?` other than as a placeholder.) -/
def countPlaceholders (q : String) : Nat :=
  (q.data.filter (fun c => c == '?')).length

/-- Number of `.` characters in a SQL text; separates the fixed
`sqlite_temp_master` catalog query from a schema-qualified one. -/
def countDots (q : String) : Nat :=
  (q.data.filter (fun c => c == '.')).length

/-! ## Operation runners

`queryRows` / `queryStrings` are not part of the provided source.
Modelled from the spec: the executor collaborator (§6) runs the one
query an operation issues and either fails or answers with the decoded
row list; an operation receives that outcome (`Except String rows`) and
wraps executor errors with its operation/target context (§7).  With
zero result rows the decoded list is empty. -/

/-- `(*Schema).Columns` after query construction: wrap an executor
error with context, otherwise return the decoded columns as-is. -/
def Schema.ColumnsRun (s : Schema) (tableName : String)
    (exec : Except String (List Column)) : Except String (List Column) :=
  match exec with
  | Except.error e =>
      Except.error ("could not get columns for table " ++ tableName ++ ": " ++ e)
  | Except.ok cols => Except.ok cols

/-- `(*Schema).ForeignKeys` after query construction: wrap an executor
error with context, otherwise regroup the decoded rows. -/
def Schema.ForeignKeysRun (s : Schema) (tableName : String)
    (exec : Except String (List FKRow)) : Except String (List ForeignKey) :=
  match exec with
  | Except.error e =>
      Except.error ("could not get foreign keys for table " ++ tableName ++ ": " ++ e)
  | Except.ok rows => Except.ok (foreignKeysOf tableName rows)

/-- `(*Schema).Indexes` after query construction: wrap an executor
error with context, otherwise regroup the decoded rows. -/
def Schema.IndexesRun (s : Schema) (tableName : String)
    (exec : Except String (List IdxRow)) : Except String (List Index) :=
  match exec with
  | Except.error e =>
      Except.error ("could not get indexes for table " ++ tableName ++ ": " ++ e)
  | Except.ok rows => Except.ok (indexesOf rows)

/-- `(*Schema).indexColumns`: `exec` carries the full
`pragma_index_xinfo` row set for the index (in the engine's `ORDER BY
seqno` order); the `WHERE key = 1` clause of the key-only mode is the
engine-side filter, made explicit here. -/
def Schema.indexColumnsRun (s : Schema) (indexName : String) (includeAux : Bool)
    (exec : Except String (List IndexColumn)) : Except String (List IndexColumn) :=
  match exec with
  | Except.error e =>
      Except.error ("could not get columns for index " ++ indexName ++ ": " ++ e)
  | Except.ok rows =>
      Except.ok (if includeAux then rows else rows.filter (fun c => c.IsKey))

/-- `(*Schema).IndexColumns`: key columns only. -/
def Schema.IndexColumnsRun (s : Schema) (indexName : String)
    (exec : Except String (List IndexColumn)) : Except String (List IndexColumn) :=
  s.indexColumnsRun indexName false exec

/-- `(*Schema).IndexColumnsAux`: key plus auxiliary columns. -/
def Schema.IndexColumnsAuxRun (s : Schema) (indexName : String)
    (exec : Except String (List IndexColumn)) : Except String (List IndexColumn) :=
  s.indexColumnsRun indexName true exec

/-! ## Name listing (`(*Schema).masterTableNames`, `(*Schema).verify`) -/

/-- Modelled from the spec: the connection state the executor exposes
to the name-listing operations — the attached-database names
(`pragma_database_list`) and, for each catalog table and object type,
the name list the catalog query returns. -/
structure DbConn where
  databases : List String
  master : String → String → List String

/-- The SQL text of the count query in `(*Schema).verify`. -/
def verifySQL : String :=
  "SELECT COUNT(*) FROM pragma_database_list WHERE LOWER(name) = ?"

/-- `(*Schema).verify` (lines 539-556): count the attached databases
whose SQLite-`LOWER`ed name equals `sqlower s.name` (the bound
parameter); zero means "unknown database".  Returns the outcome plus
the SQL texts issued. -/
def Schema.verifyRun (s : Schema) (db : DbConn) : Except String Unit × List String :=
  let count := (db.databases.filter (fun d => sqlower d == sqlower s.name)).length
  (if count < 1 then Except.error ("unknown database '" ++ s.name ++ "'")
   else Except.ok (),
   [verifySQL])

/-- The catalog query text of `(*Schema).masterTableNames`:
`fmt.Sprintf("SELECT name FROM %s WHERE type = ? ORDER BY name", tableName)`. -/
def masterSQL (tableName : String) : String :=
  "SELECT name FROM " ++ tableName ++ " WHERE type = ? ORDER BY name"

/-- `(*Schema).masterTableNames` (lines 508-537): pick the catalog
table (`sqlite_master`, `sqlite_temp_master` for a name lowercasing to
"temp" under Go's `strings.ToLower`, or the schema-qualified
`s.name + ".sqlite_master"` after verification), then run the catalog
query.  Returns the outcome plus the SQL texts issued, in order. -/
def Schema.masterTableNamesRun (s : Schema) (db : DbConn) (typ : String) :
    Except String (List String) × List String :=
  if s.name = "" then
    (Except.ok (db.master "sqlite_master" typ), [masterSQL "sqlite_master"])
  else if goToLower s.name = "temp" then
    (Except.ok (db.master "sqlite_temp_master" typ), [masterSQL "sqlite_temp_master"])
  else
    match s.verifyRun db with
    | (Except.error e, qs) =>
        (Except.error ("could not get " ++ typ ++ " names: " ++ e), qs)
    | (Except.ok _, qs) =>
        let tableName := s.name ++ "." ++ "sqlite_master"
        (Except.ok (db.master tableName typ), qs ++ [masterSQL tableName])

/-- `(*Schema).TableNames`. -/
def Schema.TableNamesRun (s : Schema) (db : DbConn) :
    Except String (List String) × List String :=
  s.masterTableNamesRun db "table"

/-- `(*Schema).ViewNames`. -/
def Schema.ViewNamesRun (s : Schema) (db : DbConn) :
    Except String (List String) × List String :=
  s.masterTableNamesRun db "view"

/-- `(*Schema).TriggerNames`. -/
def Schema.TriggerNamesRun (s : Schema) (db : DbConn) :
    Except String (List String) × List String :=
  s.masterTableNamesRun db "trigger"

/-- `(*Schema).IndexNames`. -/
def Schema.IndexNamesRun (s : Schema) (db : DbConn) :
    Except String (List String) × List String :=
  s.masterTableNamesRun db "index"

/-- A two-database connection whose catalog queries return no names;
used to instantiate theorems with hypotheses at concrete inputs. -/
def dbDemo : DbConn :=
  { databases := ["main", "temp"], master := fun _ _ => [] }

/-! ## Helper lemmas -/

/-- Splitting `n` repetitions of `"?"` into runes gives `n` copies of
`"?"`. -/
theorem goSplit_goRepeat (n : Nat) :
    goSplitRunes (goRepeatStr "?" n) = List.replicate n "?" := by
  induction n with
  | zero => rfl
  | succ k ih =>
    simp only [goRepeatStr, goSplitRunes, String.data_append, List.map_append,
      List.replicate]
    exact congrArg _ (by simpa [goSplitRunes] using ih)

/-! ## Claims -/

/-- C6: for every object name for which the introspection query yields
zero rows, `Columns`, `ForeignKeys`, `Indexes`, `IndexColumns` and
`IndexColumnsAux` each return an empty list and a nil error. -/
theorem C6_unknown_object_is_empty_not_error (s : Schema) (t i : String) :
    s.ColumnsRun t (Except.ok []) = Except.ok [] ∧
    s.ForeignKeysRun t (Except.ok []) = Except.ok [] ∧
    s.IndexesRun t (Except.ok []) = Except.ok [] ∧
    s.IndexColumnsRun i (Except.ok []) = Except.ok [] ∧
    s.IndexColumnsAuxRun i (Except.ok []) = Except.ok [] :=
  ⟨rfl, rfl, rfl, rfl, rfl⟩

/-- C10: every query built by `Columns`, `ForeignKeys`, `Indexes` and
`indexColumns` contains exactly as many `?` placeholders as bound
parameter values, and `placeholdersFor vals` is `len vals` `?` tokens
joined by `", "`. -/
theorem C10_placeholder_counts (s : Schema) (t i : String) :
    countPlaceholders (s.columnsQuery t).1 = (s.columnsQuery t).2.length ∧
    countPlaceholders (s.foreignKeysQuery t).1 = (s.foreignKeysQuery t).2.length ∧
    countPlaceholders (s.indexesQuery t).1 = (s.indexesQuery t).2.length ∧
    (∀ aux : Bool,
      countPlaceholders (s.indexColumnsQuery i aux).1 =
        (s.indexColumnsQuery i aux).2.length) ∧
    (∀ vals : List String,
      placeholdersFor vals = String.intercalate ", " (List.replicate vals.length "?")) := by
  refine ⟨?_, ?_, ?_, ?_, ?_⟩
  · by_cases h : s.name = ""
    · simp only [Schema.columnsQuery, Schema.objectParams, if_pos h,
        List.length_cons, List.length_nil]
      rw [show placeholdersFor [t] = "?" from rfl]
      decide
    · simp only [Schema.columnsQuery, Schema.objectParams, if_neg h,
        List.length_cons, List.length_nil]
      rw [show placeholdersFor [t, s.name] = "?, ?" from rfl]
      decide
  · by_cases h : s.name = ""
    · simp only [Schema.foreignKeysQuery, Schema.objectParams, if_pos h,
        List.length_cons, List.length_nil]
      rw [show placeholdersFor [t] = "?" from rfl]
      decide
    · simp only [Schema.foreignKeysQuery, Schema.objectParams, if_neg h,
        List.length_cons, List.length_nil]
      rw [show placeholdersFor [t, s.name] = "?, ?" from rfl]
      decide
  · by_cases h : s.name = ""
    · simp only [Schema.indexesQuery, if_pos h, List.length_cons, List.length_nil]
      decide
    · simp only [Schema.indexesQuery, if_neg h, List.length_cons, List.length_nil]
      decide
  · intro aux
    by_cases h : s.name = ""
    · cases aux <;>
        · simp only [Schema.indexColumnsQuery, Schema.objectParams, if_pos h,
            List.length_cons, List.length_nil]
          rw [show placeholdersFor [i] = "?" from rfl]
          decide
    · cases aux <;>
        · simp only [Schema.indexColumnsQuery, Schema.objectParams, if_neg h,
            List.length_cons, List.length_nil]
          rw [show placeholdersFor [i, s.name] = "?, ?" from rfl]
          decide
  · intro vals
    unfold placeholdersFor
    rw [goSplit_goRepeat]

/-- C8: whenever `ForeignKeyAction.Scan` or `IndexType.Scan` returns an
error, the value pointed to by the receiver is left unchanged. -/
theorem C8_failed_scan_leaves_receiver (v : ForeignKeyAction) (t : IndexType)
    (src : SqlValue) :
    ((ForeignKeyAction.scanGo v src).2.isSome → (ForeignKeyAction.scanGo v src).1 = v) ∧
    ((IndexType.scanGo t src).2.isSome → (IndexType.scanGo t src).1 = t) := by
  constructor
  · cases src <;>
      simp only [ForeignKeyAction.scanGo, toStringVal] <;>
      first
        | simp
        | (split_ifs <;> simp)
  · cases src <;>
      simp only [IndexType.scanGo, toStringVal] <;>
      first
        | simp
        | (split_ifs <;> simp)

/-- `ForeignKeyAction.scanGo`, characterized through the literal
lookup `fkaOfLiteral` and Go's case folding. -/
theorem fka_scan_eq (v : ForeignKeyAction) (src : SqlValue) :
    ForeignKeyAction.scanGo v src =
      (match toStringVal src with
      | Option.none =>
          (v, some ("invalid ForeignKeyAction: " ++ goTypeName src ++ " " ++ goValueVerb src))
      | some s =>
        match fkaOfLiteral (goToUpper s) with
        | some a => (a, Option.none)
        | Option.none => (v, some ("unsupported ForeignKeyAction: " ++ goQuote s))) := by
  cases src <;>
    simp only [ForeignKeyAction.scanGo, toStringVal, fkaOfLiteral] <;>
    first
      | rfl
      | (split_ifs <;> rfl)

/-- `IndexType.scanGo`, characterized through the literal lookup
`itOfLiteral` and Go's case folding. -/
theorem it_scan_eq (t : IndexType) (src : SqlValue) :
    IndexType.scanGo t src =
      (match toStringVal src with
      | Option.none =>
          (t, some ("invalid IndexType: " ++ goTypeName src ++ " " ++ goValueVerb src))
      | some s =>
        match itOfLiteral (goToLower s) with
        | some a => (a, Option.none)
        | Option.none => (t, some ("unsupported IndexType: " ++ goQuote s))) := by
  cases src <;>
    simp only [IndexType.scanGo, toStringVal, itOfLiteral] <;>
    first
      | rfl
      | (split_ifs <;> rfl)

/-- C3 as stated is false: its matching is ASCII-only ("all other
characters, including non-ASCII, must compare exactly"), but the code
folds with Go's Unicode-aware `strings.ToUpper`/`strings.ToLower`.  The
string "caſcade" (LATIN SMALL LETTER LONG S in place of the first 's')
matches no recognized literal under ASCII-only folding, yet
`ForeignKeyAction.Scan` accepts it, because `strings.ToUpper` maps ſ to
S; likewise `IndexType.Scan` accepts "p" followed by U+212A KELVIN
SIGN, which `strings.ToLower` maps to k. -/
theorem C3_scan_ascii_only_counterexample :
    ForeignKeyAction.scanGo ForeignKeyAction.none (SqlValue.str "caſcade") =
      (ForeignKeyAction.cascade, Option.none) ∧
    fkaOfLiteral (specAsciiUpper "caſcade") = Option.none ∧
    IndexType.scanGo IndexType.normal
      (SqlValue.str (String.mk ['p', Char.ofNat 0x212A])) =
      (IndexType.primaryKey, Option.none) ∧
    itOfLiteral (specAsciiLower (String.mk ['p', Char.ofNat 0x212A])) = Option.none := by
  decide

/-- C3 (amended): `ForeignKeyAction.Scan`/`IndexType.Scan` succeed
exactly when the input is a text string or byte sequence whose content
matches a recognized literal under Go's `strings.ToUpper` /
`strings.ToLower` case folding — Unicode simple case mapping, not the
ASCII-only folding the claim states — assigning the corresponding
enumeration value; an unrecognized literal fails with an "unsupported"
error naming the literal, and a non-text representation fails with an
"invalid" error naming the runtime type and value. -/
theorem C3_scan_decode_amended (v : ForeignKeyAction) (ty : IndexType) (src : SqlValue) :
    (((ForeignKeyAction.scanGo v src).2 = Option.none) ↔
      (∃ s a, toStringVal src = some s ∧ fkaOfLiteral (goToUpper s) = some a)) ∧
    (∀ s a, toStringVal src = some s → fkaOfLiteral (goToUpper s) = some a →
      ForeignKeyAction.scanGo v src = (a, Option.none)) ∧
    (∀ s, toStringVal src = some s → fkaOfLiteral (goToUpper s) = Option.none →
      ForeignKeyAction.scanGo v src =
        (v, some ("unsupported ForeignKeyAction: " ++ goQuote s))) ∧
    (toStringVal src = Option.none →
      ForeignKeyAction.scanGo v src =
        (v, some ("invalid ForeignKeyAction: " ++ goTypeName src ++ " " ++ goValueVerb src))) ∧
    (((IndexType.scanGo ty src).2 = Option.none) ↔
      (∃ s a, toStringVal src = some s ∧ itOfLiteral (goToLower s) = some a)) ∧
    (∀ s a, toStringVal src = some s → itOfLiteral (goToLower s) = some a →
      IndexType.scanGo ty src = (a, Option.none)) ∧
    (∀ s, toStringVal src = some s → itOfLiteral (goToLower s) = Option.none →
      IndexType.scanGo ty src = (ty, some ("unsupported IndexType: " ++ goQuote s))) ∧
    (toStringVal src = Option.none →
      IndexType.scanGo ty src =
        (ty, some ("invalid IndexType: " ++ goTypeName src ++ " " ++ goValueVerb src))) := by
  refine ⟨?_, ?_, ?_, ?_, ?_, ?_, ?_, ?_⟩
  · rw [fka_scan_eq]
    cases htos : toStringVal src with
    | none => simp [htos]
    | some s =>
      cases hlit : fkaOfLiteral (goToUpper s) with
      | none => simp [htos, hlit]
      | some a => simp [htos, hlit]
  · intro s a hs ha
    simp [fka_scan_eq, hs, ha]
  · intro s hs hnone
    simp [fka_scan_eq, hs, hnone]
  · intro h
    simp [fka_scan_eq, h]
  · rw [it_scan_eq]
    cases htos : toStringVal src with
    | none => simp [htos]
    | some s =>
      cases hlit : itOfLiteral (goToLower s) with
      | none => simp [htos, hlit]
      | some a => simp [htos, hlit]
  · intro s a hs ha
    simp [it_scan_eq, hs, ha]
  · intro s hs hnone
    simp [it_scan_eq, hs, hnone]
  · intro h
    simp [it_scan_eq, h]

/-- C3 (amended), instantiated: byte input "Cascade" decodes to the
cascade action, and text "PK" decodes to the primary-key index type. -/
theorem C3_scan_decode_amended_witness :
    ForeignKeyAction.scanGo ForeignKeyAction.none (SqlValue.bytes "Cascade") =
      (ForeignKeyAction.cascade, Option.none) ∧
    IndexType.scanGo IndexType.normal (SqlValue.str "PK") =
      (IndexType.primaryKey, Option.none) :=
  ⟨(C3_scan_decode_amended ForeignKeyAction.none IndexType.normal
      (SqlValue.bytes "Cascade")).2.1 "Cascade" ForeignKeyAction.cascade rfl (by decide),
   (C3_scan_decode_amended ForeignKeyAction.none IndexType.normal
      (SqlValue.str "PK")).2.2.2.2.2.1 "PK" IndexType.primaryKey rfl (by decide)⟩

/-- C8, instantiated: a failed decode from `int64 42` and from the
unrecognized literal `"zzz"` leaves the receivers untouched. -/
theorem C8_failed_scan_leaves_receiver_witness :
    (ForeignKeyAction.scanGo ForeignKeyAction.restrict (SqlValue.int64 42)).1 =
      ForeignKeyAction.restrict ∧
    (IndexType.scanGo IndexType.unique (SqlValue.str "zzz")).1 = IndexType.unique :=
  ⟨(C8_failed_scan_leaves_receiver ForeignKeyAction.restrict IndexType.unique
      (SqlValue.int64 42)).1 (by decide),
   (C8_failed_scan_leaves_receiver ForeignKeyAction.restrict IndexType.unique
      (SqlValue.str "zzz")).2 (by decide)⟩

/-- On the four characters of `"temp"`, Go's Unicode lowercasing and
ASCII-only lowercasing agree: no non-ASCII character lowercases into
`{t, e, m, p}`. -/
theorem lower_char_agree (x : Char) (hx : x ∈ (['t', 'e', 'm', 'p'] : List Char))
    (c : Char) : goLowerChar c = x ↔ sqlowerChar c = x := by
  simp only [List.mem_cons, List.not_mem_nil, or_false] at hx
  rcases hx with rfl | rfl | rfl | rfl <;>
    · simp only [goLowerChar, sqlowerChar]
      split_ifs with h1 h2 h3
      · exact Iff.rfl
      · subst h2
        decide
      · subst h3
        decide
      · exact Iff.rfl

/-- Mapping either character folding over a list hits a fixed target
list equally, provided the foldings agree on the target's characters. -/
theorem map_lower_agree (l : List Char) :
    ∀ tgt : List Char,
      (∀ x ∈ tgt, ∀ c, (goLowerChar c = x ↔ sqlowerChar c = x)) →
      (l.map goLowerChar = tgt ↔ l.map sqlowerChar = tgt) := by
  induction l with
  | nil => intro tgt _; exact Iff.rfl
  | cons c cs ih =>
    intro tgt h
    cases tgt with
    | nil => simp
    | cons t ts =>
      simp only [List.map_cons, List.cons.injEq]
      have hts := ih ts (fun x hx c' => h x (List.mem_cons_of_mem t hx) c')
      have hd := h t (List.mem_cons_self t ts) c
      constructor
      · rintro ⟨h1, h2⟩
        exact ⟨hd.mp h1, hts.mp h2⟩
      · rintro ⟨h1, h2⟩
        exact ⟨hd.mpr h1, hts.mpr h2⟩

/-- A schema name lowercases to `"temp"` under Go's `strings.ToLower`
exactly when it does under ASCII-only folding. -/
theorem goToLower_temp_iff (s : String) :
    goToLower s = "temp" ↔ sqlower s = "temp" := by
  unfold goToLower sqlower
  rw [String.ext_iff, String.ext_iff]
  show s.data.map goLowerChar = ['t', 'e', 'm', 'p'] ↔
    s.data.map sqlowerChar = ['t', 'e', 'm', 'p']
  exact map_lower_agree s.data ['t', 'e', 'm', 'p'] (fun x hx c => lower_char_agree x hx c)

/-- `countDots` distributes over string concatenation. -/
theorem countDots_append (x y : String) :
    countDots (x ++ y) = countDots x + countDots y := by
  simp [countDots, String.data_append]

/-- A schema-qualified catalog query is never the `sqlite_temp_master`
one: the former contains a dot, the latter does not. -/
theorem masterSQL_qualified_ne_temp (x : String) :
    masterSQL (x ++ "." ++ "sqlite_master") ≠ masterSQL "sqlite_temp_master" := by
  intro h
  have h' := congrArg countDots h
  rw [show masterSQL "sqlite_temp_master" =
        "SELECT name FROM " ++ "sqlite_temp_master" ++ " WHERE type = ? ORDER BY name"
      from rfl] at h'
  simp only [masterSQL, countDots_append] at h'
  have hx : countDots "." = 1 := by decide
  have h1 : countDots "SELECT name FROM " = 0 := by decide
  have h2 : countDots " WHERE type = ? ORDER BY name" = 0 := by decide
  have h3 : countDots "sqlite_master" = 0 := by decide
  have h4 : countDots "sqlite_temp_master" = 0 := by decide
  omega

/-- Shared shape of C1: a named, non-temp schema that matches no
attached database makes `masterTableNames` fail with the wrapped
"unknown database" error after issuing only the constant verify
query. -/
theorem masterTableNames_unknown (s : Schema) (db : DbConn) (typ : String)
    (hname : s.name ≠ "") (htemp : sqlower s.name ≠ "temp")
    (hnodb : ∀ d ∈ db.databases, sqlower d ≠ sqlower s.name) :
    s.masterTableNamesRun db typ =
      (Except.error ("could not get " ++ typ ++ " names: " ++
        ("unknown database '" ++ s.name ++ "'")), [verifySQL]) := by
  have hgo : ¬ goToLower s.name = "temp" := fun h => htemp ((goToLower_temp_iff _).mp h)
  have hfilter : db.databases.filter (fun d => sqlower d == sqlower s.name) = [] := by
    refine List.filter_eq_nil_iff.mpr (fun d hd => ?_)
    simpa using hnodb d hd
  simp [Schema.masterTableNamesRun, if_neg hname, if_neg hgo, Schema.verifyRun, hfilter]

/-- C1: a schema selector with a non-empty name that is not "temp"
(ASCII case folding) and matches no attached database makes every
name-listing operation return an error containing the exact requested
name, with only the constant count query (parameterized, with no name
spliced into it) ever issued. -/
theorem C1_unknown_schema_rejected_before_splicing (s : Schema) (db : DbConn)
    (hname : s.name ≠ "") (htemp : sqlower s.name ≠ "temp")
    (hnodb : ∀ d ∈ db.databases, sqlower d ≠ sqlower s.name) :
    (∃ pre post, s.TableNamesRun db = (Except.error (pre ++ s.name ++ post), [verifySQL])) ∧
    (∃ pre post, s.ViewNamesRun db = (Except.error (pre ++ s.name ++ post), [verifySQL])) ∧
    (∃ pre post, s.TriggerNamesRun db = (Except.error (pre ++ s.name ++ post), [verifySQL])) ∧
    (∃ pre post, s.IndexNamesRun db = (Except.error (pre ++ s.name ++ post), [verifySQL])) := by
  have key : ∀ typ : String,
      s.masterTableNamesRun db typ =
        (Except.error (("could not get " ++ typ ++ " names: " ++ "unknown database '") ++
          s.name ++ "'"), [verifySQL]) := by
    intro typ
    rw [masterTableNames_unknown s db typ hname htemp hnodb]
    simp only [String.append_assoc]
  exact ⟨⟨_, _, key "table"⟩, ⟨_, _, key "view"⟩, ⟨_, _, key "trigger"⟩, ⟨_, _, key "index"⟩⟩

/-- C1, instantiated: listing tables of the unknown schema "nosuch" on
a connection with databases `main` and `temp` fails with an error
containing "nosuch" after issuing only the verify query. -/
theorem C1_unknown_schema_rejected_before_splicing_witness :
    ∃ pre post, Schema.TableNamesRun ⟨"nosuch"⟩ dbDemo =
      (Except.error (pre ++ "nosuch" ++ post), [verifySQL]) :=
  (C1_unknown_schema_rejected_before_splicing ⟨"nosuch"⟩ dbDemo
    (by decide) (by decide) (by decide)).1

/-- C7: a named selector whose name case-folds to "temp" routes every
name-listing operation to the fixed `sqlite_temp_master` catalog query,
with no verification query and no caller-supplied text in the issued
SQL; and that routing happens exactly for the names folding to
"temp". -/
theorem C7_temp_schema_routing (s : Schema) (db : DbConn) (typ : String)
    (hname : s.name ≠ "") :
    (sqlower s.name = "temp" →
      s.masterTableNamesRun db typ =
        (Except.ok (db.master "sqlite_temp_master" typ),
          [masterSQL "sqlite_temp_master"]) ∧
      verifySQL ∉ (s.masterTableNamesRun db typ).2) ∧
    (masterSQL "sqlite_temp_master" ∈ (s.masterTableNamesRun db typ).2 ↔
      sqlower s.name = "temp") := by
  constructor
  · intro htemp
    have hgo : goToLower s.name = "temp" := (goToLower_temp_iff _).mpr htemp
    have heq : s.masterTableNamesRun db typ =
        (Except.ok (db.master "sqlite_temp_master" typ),
          [masterSQL "sqlite_temp_master"]) := by
      simp [Schema.masterTableNamesRun, if_neg hname, hgo]
    refine ⟨heq, ?_⟩
    rw [heq]
    simp only [List.mem_singleton]
    decide
  · constructor
    · intro hmem
      by_contra htemp
      have hgo : ¬ goToLower s.name = "temp" :=
        fun h => htemp ((goToLower_temp_iff _).mp h)
      by_cases hc : (db.databases.filter (fun d => sqlower d == sqlower s.name)).length < 1
      · rw [show s.masterTableNamesRun db typ =
              (Except.error ("could not get " ++ typ ++ " names: " ++
                ("unknown database '" ++ s.name ++ "'")), [verifySQL]) from by
            simp [Schema.masterTableNamesRun, if_neg hname, if_neg hgo,
              Schema.verifyRun, hc]] at hmem
        simp only [List.mem_singleton] at hmem
        exact absurd hmem (by decide)
      · rw [show s.masterTableNamesRun db typ =
              (Except.ok (db.master (s.name ++ "." ++ "sqlite_master") typ),
                [verifySQL, masterSQL (s.name ++ "." ++ "sqlite_master")]) from by
            simp [Schema.masterTableNamesRun, if_neg hname, if_neg hgo,
              Schema.verifyRun, hc]] at hmem
        simp only [List.mem_cons, List.not_mem_nil, or_false] at hmem
        rcases hmem with hmem | hmem
        · exact absurd hmem (by decide)
        · exact masterSQL_qualified_ne_temp s.name hmem.symm
    · intro htemp
      have hgo : goToLower s.name = "temp" := (goToLower_temp_iff _).mpr htemp
      simp [Schema.masterTableNamesRun, if_neg hname, hgo]

/-- C7, instantiated: the selector named "TEMP" lists tables from
`sqlite_temp_master` with no verification query issued. -/
theorem C7_temp_schema_routing_witness :
    Schema.masterTableNamesRun ⟨"TEMP"⟩ dbDemo "table" =
      (Except.ok (dbDemo.master "sqlite_temp_master" "table"),
        [masterSQL "sqlite_temp_master"]) :=
  ((C7_temp_schema_routing ⟨"TEMP"⟩ dbDemo "table" (by decide)).1 (by decide)).1

/-! ## Reassembly equals run-wise regrouping -/

/-- Folding the per-row append over a run extends the list fields by
the run's columns and touches nothing else. -/
theorem fkFoldRun (run : List FKRow) :
    ∀ fk : ForeignKey,
      List.foldl fkAppendRow fk run =
        { fk with
          ChildKey := fk.ChildKey ++ run.map FKRow.From
          ParentKey := fk.ParentKey ++ run.map FKRow.To } := by
  induction run with
  | nil => intro fk; simp
  | cons r rs ih =>
    intro fk
    rw [List.foldl_cons, ih (fkAppendRow fk r)]
    simp [fkAppendRow]

/-- A record started by row `r` and folded over the rest of `r`'s run
is exactly the spec-side record of the run. -/
theorem fkFold_new (t : String) (r : FKRow) (run : List FKRow) :
    List.foldl fkAppendRow (fkAppendRow (fkNew t r) r) run = fkOfRun t r run := by
  rw [fkFoldRun]
  simp [fkAppendRow, fkNew, fkOfRun]

/-- The loop with an open record `fk` finishes `fk` with the rest of
its run and then regroups the remaining rows. -/
theorem fkLoop_some (t : String) :
    ∀ (rows : List FKRow) (acc : List ForeignKey) (fk : ForeignKey),
      fkLoop t rows acc (some fk) =
        acc ++ List.foldl fkAppendRow fk (rows.takeWhile (fun x => x.ID == fk.ID)) ::
          fkGroups t (rows.dropWhile (fun x => x.ID == fk.ID)) := by
  intro rows
  induction rows with
  | nil =>
    intro acc fk
    simp [fkLoop, fkGroups]
  | cons r rs ih =>
    intro acc fk
    by_cases h : r.ID = fk.ID
    · have hb : (fun x : FKRow => x.ID == fk.ID) r = true := by simpa using h
      have ht : List.takeWhile (fun x : FKRow => x.ID == fk.ID) (r :: rs) =
          r :: List.takeWhile (fun x : FKRow => x.ID == fk.ID) rs :=
        List.takeWhile_cons_of_pos hb
      have hd : List.dropWhile (fun x : FKRow => x.ID == fk.ID) (r :: rs) =
          List.dropWhile (fun x : FKRow => x.ID == fk.ID) rs :=
        List.dropWhile_cons_of_pos hb
      rw [ht, hd]
      simp only [fkLoop]
      rw [if_neg (not_not_intro h), ih acc (fkAppendRow fk r)]
      rw [show (fkAppendRow fk r).ID = fk.ID from rfl]
      simp [List.foldl_cons]
    · have hb : ¬ (fun x : FKRow => x.ID == fk.ID) r = true := by simpa using h
      have ht : List.takeWhile (fun x : FKRow => x.ID == fk.ID) (r :: rs) = [] :=
        List.takeWhile_cons_of_neg hb
      have hd : List.dropWhile (fun x : FKRow => x.ID == fk.ID) (r :: rs) = r :: rs :=
        List.dropWhile_cons_of_neg hb
      rw [ht, hd]
      simp only [fkLoop]
      rw [if_pos h, ih (acc ++ [fk]) (fkAppendRow (fkNew t r) r)]
      rw [show (fkAppendRow (fkNew t r) r).ID = r.ID from rfl]
      rw [fkGroups, fkFold_new]
      simp [List.append_assoc]

/-- The reassembly loop of `ForeignKeys` computes the spec-side
regrouping: one record per maximal run of equal foreign-key ids. -/
theorem foreignKeysOf_eq_fkGroups (t : String) (rows : List FKRow) :
    foreignKeysOf t rows = fkGroups t rows := by
  cases rows with
  | nil => simp [foreignKeysOf, fkLoop, fkGroups]
  | cons r rs =>
    show fkLoop t (r :: rs) [] Option.none = _
    simp only [fkLoop]
    rw [fkLoop_some t rs [] (fkAppendRow (fkNew t r) r)]
    rw [show (fkAppendRow (fkNew t r) r).ID = r.ID from rfl]
    rw [fkGroups, fkFold_new]
    simp

/-- Index analogue of `fkFoldRun`. -/
theorem idxFoldRun (run : List IdxRow) :
    ∀ idx : Index,
      List.foldl idxAppendRow idx run =
        { idx with ColumnNames := idx.ColumnNames ++ run.map IdxRow.ColumnName } := by
  induction run with
  | nil => intro idx; simp
  | cons r rs ih =>
    intro idx
    rw [List.foldl_cons, ih (idxAppendRow idx r)]
    simp [idxAppendRow]

/-- Index analogue of `fkFold_new`. -/
theorem idxFold_new (r : IdxRow) (run : List IdxRow) :
    List.foldl idxAppendRow (idxAppendRow (idxNew r) r) run = idxOfRun r run := by
  rw [idxFoldRun]
  simp [idxAppendRow, idxNew, idxOfRun]

/-- Index analogue of `fkLoop_some`. -/
theorem idxLoop_some :
    ∀ (rows : List IdxRow) (acc : List Index) (idx : Index),
      idxLoop rows acc (some idx) =
        acc ++ List.foldl idxAppendRow idx (rows.takeWhile (fun x => x.Name == idx.Name)) ::
          idxGroups (rows.dropWhile (fun x => x.Name == idx.Name)) := by
  intro rows
  induction rows with
  | nil =>
    intro acc idx
    simp [idxLoop, idxGroups]
  | cons r rs ih =>
    intro acc idx
    by_cases h : r.Name = idx.Name
    · have hb : (fun x : IdxRow => x.Name == idx.Name) r = true := by simpa using h
      have ht : List.takeWhile (fun x : IdxRow => x.Name == idx.Name) (r :: rs) =
          r :: List.takeWhile (fun x : IdxRow => x.Name == idx.Name) rs :=
        List.takeWhile_cons_of_pos hb
      have hd : List.dropWhile (fun x : IdxRow => x.Name == idx.Name) (r :: rs) =
          List.dropWhile (fun x : IdxRow => x.Name == idx.Name) rs :=
        List.dropWhile_cons_of_pos hb
      rw [ht, hd]
      simp only [idxLoop]
      rw [if_neg (not_not_intro h), ih acc (idxAppendRow idx r)]
      rw [show (idxAppendRow idx r).Name = idx.Name from rfl]
      simp [List.foldl_cons]
    · have hb : ¬ (fun x : IdxRow => x.Name == idx.Name) r = true := by simpa using h
      have ht : List.takeWhile (fun x : IdxRow => x.Name == idx.Name) (r :: rs) = [] :=
        List.takeWhile_cons_of_neg hb
      have hd : List.dropWhile (fun x : IdxRow => x.Name == idx.Name) (r :: rs) = r :: rs :=
        List.dropWhile_cons_of_neg hb
      rw [ht, hd]
      simp only [idxLoop]
      rw [if_pos h, ih (acc ++ [idx]) (idxAppendRow (idxNew r) r)]
      rw [show (idxAppendRow (idxNew r) r).Name = r.Name from rfl]
      rw [idxGroups, idxFold_new]
      simp [List.append_assoc]

/-- The reassembly loop of `Indexes` computes the spec-side
regrouping: one record per maximal run of equal index names. -/
theorem indexesOf_eq_idxGroups (rows : List IdxRow) :
    indexesOf rows = idxGroups rows := by
  cases rows with
  | nil => simp [indexesOf, idxLoop, idxGroups]
  | cons r rs =>
    show idxLoop (r :: rs) [] Option.none = _
    simp only [idxLoop]
    rw [idxLoop_some rs [] (idxAppendRow (idxNew r) r)]
    rw [show (idxAppendRow (idxNew r) r).Name = r.Name from rfl]
    rw [idxGroups, idxFold_new]
    simp

/-- C2: the single linear pass of `ForeignKeys` and of `Indexes`
produces exactly one record per maximal run of equal group-keys, in
run order, capturing the group-level fields from the run's first row
and appending one sequence-list entry per row in row order — proved
for every row list, in particular the (group-key, sequence)-pre-sorted
lists delivered by the queries' ORDER BY clauses. -/
theorem C2_linear_pass_regroups_runs (t : String) (rows : List FKRow)
    (irows : List IdxRow) :
    foreignKeysOf t rows = fkGroups t rows ∧ indexesOf irows = idxGroups irows :=
  ⟨foreignKeysOf_eq_fkGroups t rows, indexesOf_eq_idxGroups irows⟩

/-! ## Loop invariants -/

/-- Any property preserved by the per-row append, established by a
fresh record's first append, and true of the state, holds of every
record `fkLoop` emits. -/
theorem fkLoop_invariant (t : String) (P : ForeignKey → Prop) :
    ∀ (rows : List FKRow) (acc : List ForeignKey) (cur : Option ForeignKey),
      (∀ fk ∈ acc, P fk) →
      (∀ fk, cur = some fk → P fk) →
      (∀ fk r, P fk → r ∈ rows → P (fkAppendRow fk r)) →
      (∀ r ∈ rows, P (fkAppendRow (fkNew t r) r)) →
      ∀ fk ∈ fkLoop t rows acc cur, P fk := by
  intro rows
  induction rows with
  | nil =>
    intro acc cur hacc hcur _ _ fk hfk
    simp only [fkLoop] at hfk
    rcases List.mem_append.mp hfk with hm | hm
    · exact hacc fk hm
    · cases cur with
      | none => exact absurd hm (by simp)
      | some fk0 =>
        simp only [Option.toList, List.mem_singleton] at hm
        exact hm ▸ hcur fk0 rfl
  | cons r rs ih =>
    intro acc cur hacc hcur happ hnew fk hfk
    cases cur with
    | none =>
      simp only [fkLoop] at hfk
      refine ih acc (some (fkAppendRow (fkNew t r) r)) hacc ?_ ?_ ?_ fk hfk
      · intro fk' he
        exact Option.some.inj he ▸ hnew r (List.mem_cons_self r rs)
      · intro fk' r' hp hr'
        exact happ fk' r' hp (List.mem_cons_of_mem r hr')
      · intro r' hr'
        exact hnew r' (List.mem_cons_of_mem r hr')
    | some fk0 =>
      simp only [fkLoop] at hfk
      by_cases h : r.ID = fk0.ID
      · rw [if_neg (not_not_intro h)] at hfk
        refine ih acc (some (fkAppendRow fk0 r)) hacc ?_ ?_ ?_ fk hfk
        · intro fk' he
          exact Option.some.inj he ▸
            happ fk0 r (hcur fk0 rfl) (List.mem_cons_self r rs)
        · intro fk' r' hp hr'
          exact happ fk' r' hp (List.mem_cons_of_mem r hr')
        · intro r' hr'
          exact hnew r' (List.mem_cons_of_mem r hr')
      · rw [if_pos h] at hfk
        refine ih (acc ++ [fk0]) (some (fkAppendRow (fkNew t r) r)) ?_ ?_ ?_ ?_ fk hfk
        · intro fk' hm
          rcases List.mem_append.mp hm with hm | hm
          · exact hacc fk' hm
          · simp only [List.mem_singleton] at hm
            exact hm ▸ hcur fk0 rfl
        · intro fk' he
          exact Option.some.inj he ▸ hnew r (List.mem_cons_self r rs)
        · intro fk' r' hp hr'
          exact happ fk' r' hp (List.mem_cons_of_mem r hr')
        · intro r' hr'
          exact hnew r' (List.mem_cons_of_mem r hr')

/-- Index analogue of `fkLoop_invariant`. -/
theorem idxLoop_invariant (P : Index → Prop) :
    ∀ (rows : List IdxRow) (acc : List Index) (cur : Option Index),
      (∀ idx ∈ acc, P idx) →
      (∀ idx, cur = some idx → P idx) →
      (∀ idx r, P idx → r ∈ rows → P (idxAppendRow idx r)) →
      (∀ r ∈ rows, P (idxAppendRow (idxNew r) r)) →
      ∀ idx ∈ idxLoop rows acc cur, P idx := by
  intro rows
  induction rows with
  | nil =>
    intro acc cur hacc hcur _ _ idx hidx
    simp only [idxLoop] at hidx
    rcases List.mem_append.mp hidx with hm | hm
    · exact hacc idx hm
    · cases cur with
      | none => exact absurd hm (by simp)
      | some idx0 =>
        simp only [Option.toList, List.mem_singleton] at hm
        exact hm ▸ hcur idx0 rfl
  | cons r rs ih =>
    intro acc cur hacc hcur happ hnew idx hidx
    cases cur with
    | none =>
      simp only [idxLoop] at hidx
      refine ih acc (some (idxAppendRow (idxNew r) r)) hacc ?_ ?_ ?_ idx hidx
      · intro idx' he
        exact Option.some.inj he ▸ hnew r (List.mem_cons_self r rs)
      · intro idx' r' hp hr'
        exact happ idx' r' hp (List.mem_cons_of_mem r hr')
      · intro r' hr'
        exact hnew r' (List.mem_cons_of_mem r hr')
    | some idx0 =>
      simp only [idxLoop] at hidx
      by_cases h : r.Name = idx0.Name
      · rw [if_neg (not_not_intro h)] at hidx
        refine ih acc (some (idxAppendRow idx0 r)) hacc ?_ ?_ ?_ idx hidx
        · intro idx' he
          exact Option.some.inj he ▸
            happ idx0 r (hcur idx0 rfl) (List.mem_cons_self r rs)
        · intro idx' r' hp hr'
          exact happ idx' r' hp (List.mem_cons_of_mem r hr')
        · intro r' hr'
          exact hnew r' (List.mem_cons_of_mem r hr')
      · rw [if_pos h] at hidx
        refine ih (acc ++ [idx0]) (some (idxAppendRow (idxNew r) r)) ?_ ?_ ?_ ?_ idx hidx
        · intro idx' hm
          rcases List.mem_append.mp hm with hm | hm
          · exact hacc idx' hm
          · simp only [List.mem_singleton] at hm
            exact hm ▸ hcur idx0 rfl
        · intro idx' he
          exact Option.some.inj he ▸ hnew r (List.mem_cons_self r rs)
        · intro idx' r' hp hr'
          exact happ idx' r' hp (List.mem_cons_of_mem r hr')
        · intro r' hr'
          exact hnew r' (List.mem_cons_of_mem r hr')

/-- Every record produced by the foreign-key reassembly carries its
column pairs: a non-empty list of (from, to) pairs drawn from the
source rows whose projections are the ChildKey and ParentKey lists. -/
theorem foreignKeysOf_pairs (t : String) (rows : List FKRow) (fk : ForeignKey)
    (hmem : fk ∈ foreignKeysOf t rows) :
    ∃ pairs : List (String × Option String),
      pairs ≠ [] ∧
      fk.ChildKey = pairs.map Prod.fst ∧
      fk.ParentKey = pairs.map Prod.snd ∧
      ∀ p ∈ pairs, ∃ r, r ∈ rows ∧ p.1 = r.From ∧ p.2 = r.To := by
  refine fkLoop_invariant t
    (fun g => ∃ pairs : List (String × Option String),
      pairs ≠ [] ∧
      g.ChildKey = pairs.map Prod.fst ∧
      g.ParentKey = pairs.map Prod.snd ∧
      ∀ p ∈ pairs, ∃ r, r ∈ rows ∧ p.1 = r.From ∧ p.2 = r.To)
    rows [] Option.none (by simp) (fun g he => Option.noConfusion he)
    ?_ ?_ fk hmem
  · rintro g r ⟨pairs, hne, hc, hp, hsrc⟩ hr
    refine ⟨pairs ++ [(r.From, r.To)], by simp, ?_, ?_, ?_⟩
    · simp [fkAppendRow, hc]
    · simp [fkAppendRow, hp]
    · intro p hp'
      rcases List.mem_append.mp hp' with hmm | hmm
      · exact hsrc p hmm
      · simp only [List.mem_singleton] at hmm
        exact ⟨r, hr, by simp [hmm], by simp [hmm]⟩
  · intro r hr
    refine ⟨[(r.From, r.To)], by simp, ?_, ?_, ?_⟩
    · simp [fkAppendRow, fkNew]
    · simp [fkAppendRow, fkNew]
    · intro p hp'
      simp only [List.mem_singleton] at hp'
      exact ⟨r, hr, by simp [hp'], by simp [hp']⟩

/-- Every record produced by the index reassembly has a non-empty
column-name list. -/
theorem indexesOf_nonempty_columns (rows : List IdxRow) (idx : Index)
    (hmem : idx ∈ indexesOf rows) : 0 < idx.ColumnNames.length := by
  refine idxLoop_invariant (fun g => 0 < g.ColumnNames.length)
    rows [] Option.none (by simp) (fun g he => Option.noConfusion he)
    ?_ ?_ idx hmem
  · intro g r hp _
    simp [idxAppendRow]
  · intro r _
    simp [idxAppendRow, idxNew]

/-- C4: every foreign key in a successful `ForeignKeys` result has
child-key and parent-key lists of equal, positive length, and the
entries at equal positions come from the same source row's
("from", "to") pair. -/
theorem C4_child_parent_keys_aligned (s : Schema) (t : String) (rows : List FKRow)
    (fks : List ForeignKey) (fk : ForeignKey)
    (hrun : s.ForeignKeysRun t (Except.ok rows) = Except.ok fks)
    (hmem : fk ∈ fks) :
    fk.ChildKey.length = fk.ParentKey.length ∧
    0 < fk.ChildKey.length ∧
    ∀ i (h1 : i < fk.ChildKey.length) (h2 : i < fk.ParentKey.length),
      ∃ r, r ∈ rows ∧ fk.ChildKey.get ⟨i, h1⟩ = r.From ∧
        fk.ParentKey.get ⟨i, h2⟩ = r.To := by
  have hfks : foreignKeysOf t rows = fks := Except.ok.inj hrun
  rw [← hfks] at hmem
  obtain ⟨pairs, hne, hc, hp, hsrc⟩ := foreignKeysOf_pairs t rows fk hmem
  refine ⟨by rw [hc, hp]; simp, by rw [hc]; simpa [List.length_pos] using hne, ?_⟩
  intro i h1 h2
  have hip : i < pairs.length := by
    rw [hc] at h1
    simpa using h1
  obtain ⟨r, hr, hpf, hps⟩ := hsrc (pairs.get ⟨i, hip⟩) (List.get_mem pairs i hip)
  refine ⟨r, hr, ?_, ?_⟩
  · rw [← hpf]
    rw [List.get_eq_getElem, List.get_eq_getElem]
    simp only [hc, List.getElem_map]
  · rw [← hps]
    rw [List.get_eq_getElem, List.get_eq_getElem]
    simp only [hp, List.getElem_map]

/-- C4, instantiated on a two-column foreign key. -/
theorem C4_child_parent_keys_aligned_witness :
    let fk : ForeignKey :=
      ⟨7, "child", ["a", "b"], "parent", [some "x", Option.none],
        ForeignKeyAction.none, ForeignKeyAction.cascade⟩
    fk.ChildKey.length = fk.ParentKey.length ∧ 0 < fk.ChildKey.length :=
  ⟨(C4_child_parent_keys_aligned ⟨""⟩ "child"
      [⟨7, "parent", "a", some "x", ForeignKeyAction.none, ForeignKeyAction.cascade⟩,
       ⟨7, "parent", "b", Option.none, ForeignKeyAction.none, ForeignKeyAction.cascade⟩]
      _ _ rfl (List.mem_singleton.mpr rfl)).1,
   (C4_child_parent_keys_aligned ⟨""⟩ "child"
      [⟨7, "parent", "a", some "x", ForeignKeyAction.none, ForeignKeyAction.cascade⟩,
       ⟨7, "parent", "b", Option.none, ForeignKeyAction.none, ForeignKeyAction.cascade⟩]
      _ _ rfl (List.mem_singleton.mpr rfl)).2.1⟩

/-- C9: every foreign key in a successful `ForeignKeys` result has
non-empty ChildKey and ParentKey lists, and every index in a
successful `Indexes` result has a non-empty ColumnNames list. -/
theorem C9_group_lists_nonempty (s : Schema) (t : String) (rows : List FKRow)
    (irows : List IdxRow) (fks : List ForeignKey) (idxs : List Index)
    (fk : ForeignKey) (ix : Index)
    (hfrun : s.ForeignKeysRun t (Except.ok rows) = Except.ok fks)
    (hfmem : fk ∈ fks)
    (hirun : s.IndexesRun t (Except.ok irows) = Except.ok idxs)
    (himem : ix ∈ idxs) :
    0 < fk.ChildKey.length ∧ 0 < fk.ParentKey.length ∧
      0 < ix.ColumnNames.length := by
  have hfks : foreignKeysOf t rows = fks := Except.ok.inj hfrun
  rw [← hfks] at hfmem
  have hidxs : indexesOf irows = idxs := Except.ok.inj hirun
  rw [← hidxs] at himem
  obtain ⟨pairs, hne, hc, hp, _⟩ := foreignKeysOf_pairs t rows fk hfmem
  refine ⟨by rw [hc]; simpa [List.length_pos] using hne,
    by rw [hp]; simpa [List.length_pos] using hne,
    indexesOf_nonempty_columns irows ix himem⟩

/-- C9, instantiated on a one-column foreign key and a one-column
index. -/
theorem C9_group_lists_nonempty_witness :
    (0 : Nat) <
      (ForeignKey.mk 0 "child" ["a"] "parent" [some "x"]
        ForeignKeyAction.none ForeignKeyAction.none).ChildKey.length ∧
    (0 : Nat) <
      (Index.mk "i1" IndexType.normal false false [some "c"]).ColumnNames.length :=
  ⟨(C9_group_lists_nonempty ⟨""⟩ "child"
      [⟨0, "parent", "a", some "x", ForeignKeyAction.none, ForeignKeyAction.none⟩]
      [⟨"i1", IndexType.normal, false, false, some "c"⟩]
      _ _ _ _ rfl (List.mem_singleton.mpr rfl) rfl (List.mem_singleton.mpr rfl)).1,
   (C9_group_lists_nonempty ⟨""⟩ "child"
      [⟨0, "parent", "a", some "x", ForeignKeyAction.none, ForeignKeyAction.none⟩]
      [⟨"i1", IndexType.normal, false, false, some "c"⟩]
      _ _ _ _ rfl (List.mem_singleton.mpr rfl) rfl (List.mem_singleton.mpr rfl)).2.2⟩

/-! ## Key columns precede auxiliary columns -/

/-- In a chain where a satisfied predicate propagates leftwards, a
false head forces the predicate false on the whole list. -/
theorem chain_head_false {α : Type} (p : α → Bool) :
    ∀ (l : List α) (a : α),
      List.Chain' (fun u v => p v = true → p u = true) (a :: l) →
      p a = false → ∀ x ∈ a :: l, p x = false := by
  intro l
  induction l with
  | nil =>
    intro a _ ha x hx
    simp only [List.mem_singleton] at hx
    exact hx ▸ ha
  | cons b l' ih =>
    intro a hch ha x hx
    have hrel := (List.chain'_cons.mp hch).1
    have hch' := (List.chain'_cons.mp hch).2
    have hb : p b = false := by
      cases hpb : p b
      · rfl
      · exact absurd (hrel hpb) (by simp [ha])
    rcases List.mem_cons.mp hx with rfl | hx'
    · exact ha
    · exact ih b hch' hb x hx'

/-- In such a chain, everything dropped by `dropWhile p` fails `p`. -/
theorem dropWhile_all_false {α : Type} (p : α → Bool) :
    ∀ l : List α, List.Chain' (fun u v => p v = true → p u = true) l →
      ∀ x ∈ l.dropWhile p, p x = false := by
  intro l
  induction l with
  | nil =>
    intro _ x hx
    exact absurd hx (by simp)
  | cons a l' ih =>
    intro hch x hx
    cases hpa : p a
    · rw [List.dropWhile_cons_of_neg (by simp [hpa])] at hx
      exact chain_head_false p l' a hch hpa x hx
    · rw [List.dropWhile_cons_of_pos hpa] at hx
      exact ih hch.tail x hx

/-- In such a chain, filtering equals taking the initial run: all the
hits form a prefix. -/
theorem filter_eq_takeWhile_of_chain {α : Type} (p : α → Bool) :
    ∀ l : List α, List.Chain' (fun u v => p v = true → p u = true) l →
      l.filter p = l.takeWhile p := by
  intro l
  induction l with
  | nil => intro _; rfl
  | cons a l' ih =>
    intro hch
    cases hpa : p a
    · have ht : List.takeWhile p (a :: l') = [] :=
        List.takeWhile_cons_of_neg (by simp [hpa])
      have hf : List.filter p (a :: l') = List.filter p l' := by
        simp [List.filter_cons, hpa]
      rw [ht, hf]
      refine List.filter_eq_nil_iff.mpr ?_
      intro x hx
      have hfalse := chain_head_false p l' a hch hpa x (List.mem_cons_of_mem a hx)
      simp [hfalse]
    · have ht : List.takeWhile p (a :: l') = a :: List.takeWhile p l' :=
        List.takeWhile_cons_of_pos hpa
      have hf : List.filter p (a :: l') = a :: List.filter p l' := by
        simp [List.filter_cons, hpa]
      rw [ht, hf, ih hch.tail]

/-- C5: when the engine answers `pragma_index_xinfo` in seqno order
with all true-key entries before all auxiliary entries, the key-only
result equals the IsKey-subsequence of the key-plus-auxiliary result,
is a prefix of it, and the remainder is purely auxiliary. -/
theorem C5_key_only_is_prefix_of_aux (s : Schema) (i : String)
    (rows : List IndexColumn)
    (hsorted : List.Chain' (fun a b => a.Rank ≤ b.Rank) rows)
    (hkeysfirst : List.Chain' (fun a b => b.IsKey = true → a.IsKey = true) rows) :
    ∃ key tail,
      s.IndexColumnsRun i (Except.ok rows) = Except.ok key ∧
      s.IndexColumnsAuxRun i (Except.ok rows) = Except.ok (key ++ tail) ∧
      key = (key ++ tail).filter (fun c => c.IsKey) ∧
      ∀ c ∈ tail, c.IsKey = false := by
  refine ⟨rows.takeWhile (fun c => c.IsKey), rows.dropWhile (fun c => c.IsKey),
    ?_, ?_, ?_, ?_⟩
  · simp only [Schema.IndexColumnsRun, Schema.indexColumnsRun, Bool.false_eq_true,
      if_false]
    exact congrArg Except.ok (filter_eq_takeWhile_of_chain _ rows hkeysfirst)
  · simp only [Schema.IndexColumnsAuxRun, Schema.indexColumnsRun, if_true]
    exact congrArg Except.ok (List.takeWhile_append_dropWhile _ rows).symm
  · rw [List.takeWhile_append_dropWhile]
    exact (filter_eq_takeWhile_of_chain _ rows hkeysfirst).symm
  · exact dropWhile_all_false _ rows hkeysfirst

/-- C5, instantiated on one key entry followed by one auxiliary
entry. -/
theorem C5_key_only_is_prefix_of_aux_witness :
    ∃ key tail,
      Schema.IndexColumnsRun ⟨""⟩ "idx"
        (Except.ok
          [⟨some "c", 0, 2, false, "BINARY", true⟩,
           ⟨Option.none, 1, -1, false, "BINARY", false⟩]) = Except.ok key ∧
      Schema.IndexColumnsAuxRun ⟨""⟩ "idx"
        (Except.ok
          [⟨some "c", 0, 2, false, "BINARY", true⟩,
           ⟨Option.none, 1, -1, false, "BINARY", false⟩]) = Except.ok (key ++ tail) ∧
      key = (key ++ tail).filter (fun c => c.IsKey) ∧
      ∀ c ∈ tail, c.IsKey = false :=
  C5_key_only_is_prefix_of_aux ⟨""⟩ "idx"
    [⟨some "c", 0, 2, false, "BINARY", true⟩,
     ⟨Option.none, 1, -1, false, "BINARY", false⟩]
    (List.chain'_pair.mpr (by decide))
    (List.chain'_pair.mpr (by decide))

end Sqlitemeta
